import Mathlib

/-!
Verification of the copy-on-write trie (`src/trie.rs`, `src/node.rs`,
`src/value.rs`).

The Rust code is a persistent trie: `Node` holds an optional `Value` and a
`HashMap<char, Arc<Node>>` of children; `Trie` wraps an `Option<Arc<Node>>`
root.  We embed it shallowly:

* `Value` mirrors `value.rs` (`Int32(u32)`, `Int64(u64)`, `String`); the
  integer payloads carry `Nat` since no arithmetic is ever performed on them.
* the children `HashMap` becomes an association list `List (Char × Node)`
  with lookup / replace-insert / remove operations (`childGet`,
  `childInsert`, `childRemove`) matching the map's semantics; iteration
  order is never observed by the code.
* `put_helper`'s `(key, depth)` pair is represented by the key suffix
  `key[depth..]`, so the `depth == key.len()` test becomes a match on `[]`
  and `key[depth]` becomes the head of the suffix.
-/

set_option maxHeartbeats 1000000

namespace CowTrie

/-- `value.rs`: the closed variant of storable payloads. -/
inductive Value where
  | int32 (v : Nat)
  | int64 (v : Nat)
  | string (s : String)
deriving DecidableEq

/-- `node.rs`: a trie node, `value: Option<Value>` and
`children: HashMap<char, Arc<Node>>` modelled as an association list. -/
inductive Node where
  | mk (value : Option Value) (children : List (Char × Node))

/-- Projection for the `value` field of `Node`. -/
def Node.value : Node → Option Value
  | .mk v _ => v

/-- Projection for the `children` field of `Node`. -/
def Node.children : Node → List (Char × Node)
  | .mk _ cs => cs

@[simp] theorem Node.value_mk (v : Option Value) (cs : List (Char × Node)) :
    (Node.mk v cs).value = v := rfl

@[simp] theorem Node.children_mk (v : Option Value) (cs : List (Char × Node)) :
    (Node.mk v cs).children = cs := rfl

/-- `Node::new()`: no value, empty child map. -/
def Node.new : Node := .mk none []

/-- `children.get(&c)` on the association-list model of the child map. -/
def childGet (cs : List (Char × Node)) (c : Char) : Option Node :=
  match cs with
  | [] => none
  | (k, n) :: rest => if k = c then some n else childGet rest c

/-- `children.insert(c, n)`: replace the binding for `c` if present,
otherwise append it. -/
def childInsert (cs : List (Char × Node)) (c : Char) (n : Node) :
    List (Char × Node) :=
  match cs with
  | [] => [(c, n)]
  | (k, m) :: rest => if k = c then (c, n) :: rest else (k, m) :: childInsert rest c n

/-- `children.remove(&c)`: drop every binding for `c` (the map's keys are
unique, so this is the map's single-entry removal). -/
def childRemove (cs : List (Char × Node)) (c : Char) : List (Char × Node) :=
  match cs with
  | [] => []
  | (k, m) :: rest => if k = c then childRemove rest c else (k, m) :: childRemove rest c

/-- The character-by-character descent of `Trie::get`, starting from a node. -/
def nodeGet (n : Node) (key : List Char) : Option Value :=
  match key with
  | [] => n.value
  | c :: rest =>
    match childGet n.children c with
    | some child => nodeGet child rest
    | none => none

/-- `Trie::create_path`: a fresh chain of nodes for the remaining key
suffix, terminating in a node holding the value. -/
def create_path (key : List Char) (v : Value) : Node :=
  match key with
  | [] => .mk (some v) []
  | c :: rest => .mk none [(c, create_path rest v)]

/-- `Trie::put_helper` on the key suffix `key[depth..]`: copy the node's
value and children; at the end of the key overwrite the value, otherwise
rebuild the child for the next character. -/
def put_helper (node : Node) (key : List Char) (v : Value) : Node :=
  match key with
  | [] => .mk (some v) node.children
  | c :: rest =>
    let child :=
      match childGet node.children c with
      | some child => put_helper child rest v
      | none => create_path rest v
    .mk node.value (childInsert node.children c child)

/-- The final guard of `delete_helper`:
`if new_node.children.is_empty() && new_node.value.is_none() { None }
else { Some(Arc::new(new_node)) }`. -/
def elideEmpty (v : Option Value) (cs : List (Char × Node)) : Option Node :=
  match cs, v with
  | [], none => none
  | cs, v => some (.mk v cs)

/-- `Trie::delete_helper` on the key suffix: at the end of the key, keep the
node (value cleared) iff it has children; on the path, rebuild or remove the
child for the next character, then elide the node if it has neither value
nor children. -/
def delete_helper (node : Node) (key : List Char) : Option Node :=
  match key with
  | [] =>
    match node.children with
    | [] => none
    | _ :: _ => some (.mk none node.children)
  | c :: rest =>
    let newChildren :=
      match childGet node.children c with
      | some child =>
        match delete_helper child rest with
        | some newChild => childInsert node.children c newChild
        | none => childRemove node.children c
      | none => node.children
    elideEmpty node.value newChildren

/-- `trie.rs`: a versioned handle over a possibly-absent root node. -/
structure Trie where
  root : Option Node

/-- `Trie::new()`: no root. -/
def Trie.new : Trie := ⟨none⟩

/-- `Trie::get`: descend from the root (if any) one character per hop and
return the terminal node's value. -/
def Trie.get (t : Trie) (key : List Char) : Option Value :=
  match t.root with
  | none => none
  | some root => nodeGet root key

/-- `Trie::put`: rebuild the path via `put_helper` when a root exists;
otherwise build a fresh root (value at the root for the empty key, or a
`create_path` chain under the first character). -/
def Trie.put (t : Trie) (key : List Char) (v : Value) : Trie :=
  match t.root with
  | some root => ⟨some (put_helper root key v)⟩
  | none =>
    match key with
    | [] => ⟨some (.mk (some v) [])⟩
    | c :: rest => ⟨some (.mk none [(c, create_path rest v)])⟩

/-- `Trie::delete`: `delete_helper` from the root; an elided root leaves an
empty trie. -/
def Trie.delete (t : Trie) (key : List Char) : Trie :=
  match t.root with
  | none => ⟨none⟩
  | some root => ⟨delete_helper root key⟩

/-- `Trie::get_root`: the root node, or a fresh empty node. -/
def Trie.get_root (t : Trie) : Node := t.root.getD Node.new

/-- `Trie::from_node`: wrap a pre-built root. -/
def Trie.from_node (n : Node) : Trie := ⟨some n⟩

/-- `Trie::into_node`: unwrap the root, or a fresh empty node. -/
def Trie.into_node (t : Trie) : Node := t.root.getD Node.new

/-- Lookup through an optional node, as `Trie::get` does through `root`. -/
def optNodeGet (n? : Option Node) (key : List Char) : Option Value :=
  match n? with
  | none => none
  | some n => nodeGet n key

/-- A `put`/`delete` operation applied to one fixed key (for the
"any sequence of mutations on `k1`" part of isolation). -/
inductive Op where
  | putv (v : Value)
  | del

/-- Apply one operation at key `k`. -/
def applyOp (k : List Char) (t : Trie) : Op → Trie
  | .putv v => t.put k v
  | .del => t.delete k

/-- Apply a sequence of operations, all at key `k`. -/
def applyOps (k : List Char) (t : Trie) : List Op → Trie
  | [] => t
  | op :: rest => applyOps k (applyOp k t op) rest

/-- The node addressed by a key: follow one child edge per character. -/
def nodeAt (n : Node) (key : List Char) : Option Node :=
  match key with
  | [] => some n
  | c :: rest =>
    match childGet n.children c with
    | some child => nodeAt child rest
    | none => none

/-- The node a key addresses in a trie, starting from the root. -/
def Trie.subnode (t : Trie) (key : List Char) : Option Node :=
  match t.root with
  | none => none
  | some root => nodeAt root key

mutual

/-- The §3 invariant, recursively: this node and every descendant has a
value or a nonempty child map. -/
def wellPruned : Node → Bool
  | .mk v cs => (v.isSome || !cs.isEmpty) && childrenPruned cs

/-- `wellPruned` for every node of a child list. -/
def childrenPruned : List (Char × Node) → Bool
  | [] => true
  | (_, n) :: rest => wellPruned n && childrenPruned rest

end

/-- The §3 invariant at trie level: an absent root, or a well-pruned root. -/
def triePruned (t : Trie) : Bool :=
  match t.root with
  | none => true
  | some n => wellPruned n

/-- A `put` or `delete` operation with its key (for reachability from
`Trie::new` by arbitrary operation sequences). -/
inductive OpK where
  | putv (k : List Char) (v : Value)
  | del (k : List Char)

/-- Apply one keyed operation. -/
def applyOpK (t : Trie) : OpK → Trie
  | .putv k v => t.put k v
  | .del k => t.delete k

/-- Apply a sequence of keyed operations. -/
def applyOpsK (t : Trie) : List OpK → Trie
  | [] => t
  | op :: rest => applyOpsK (applyOpK t op) rest

/-! ### Store-based embedding for the copy-on-write frame property

The pure functions above cannot even express "constructing `t2` does not
change `t`", because they copy nothing.  To check that claim against the
code we re-embed `trie.rs` with the `Arc` heap made explicit: a store is a
list of nodes addressed by index (an `Arc<Node>` becomes an index), and
every `Arc::new` in the source becomes an append at the end of the store.
The functions below mirror `put` / `delete` / `get` line for line, but
thread the store; existing cells are never written. -/

/-- A node in the explicit-heap embedding: children map characters to
store indices. -/
structure SNode where
  value : Option Value
  children : List (Char × Nat)
deriving DecidableEq

/-- The explicit heap: `Arc<Node>` becomes an index into this list, and
allocation appends. -/
abbrev Store := List SNode

/-- Dereference an `Arc` (index) in the store. -/
def lookupS (s : Store) (i : Nat) : Option SNode :=
  s[i]?

/-- `children.get(&c)` for index-valued child maps. -/
def childGetN (cs : List (Char × Nat)) (c : Char) : Option Nat :=
  match cs with
  | [] => none
  | (k, j) :: rest => if k = c then some j else childGetN rest c

/-- `children.insert(c, j)` for index-valued child maps. -/
def childInsertN (cs : List (Char × Nat)) (c : Char) (j : Nat) :
    List (Char × Nat) :=
  match cs with
  | [] => [(c, j)]
  | (k, i) :: rest => if k = c then (c, j) :: rest else (k, i) :: childInsertN rest c j

/-- `children.remove(&c)` for index-valued child maps. -/
def childRemoveN (cs : List (Char × Nat)) (c : Char) : List (Char × Nat) :=
  match cs with
  | [] => []
  | (k, i) :: rest => if k = c then childRemoveN rest c else (k, i) :: childRemoveN rest c

/-- `Trie::get` in the store embedding. -/
def getS (s : Store) (i : Nat) (key : List Char) : Option Value :=
  match key with
  | [] =>
    match lookupS s i with
    | none => none
    | some n => n.value
  | c :: rest =>
    match lookupS s i with
    | none => none
    | some n =>
      match childGetN n.children c with
      | some j => getS s j rest
      | none => none

/-- `Trie::create_path` in the store embedding: allocate the chain bottom-up
and return the store with the root index of the chain. -/
def create_pathS (s : Store) (key : List Char) (v : Value) : Store × Nat :=
  match key with
  | [] => (s ++ [⟨some v, []⟩], List.length s)
  | c :: rest =>
    let (s1, j) := create_pathS s rest v
    (s1 ++ [⟨none, [(c, j)]⟩], List.length s1)

/-- `Trie::put_helper` in the store embedding.  A dangling index (never
produced by the code) is returned unchanged. -/
def put_helperS (s : Store) (i : Nat) (key : List Char) (v : Value) :
    Store × Nat :=
  match key with
  | [] =>
    match lookupS s i with
    | none => (s, i)
    | some n => (s ++ [⟨some v, n.children⟩], List.length s)
  | c :: rest =>
    match lookupS s i with
    | none => (s, i)
    | some n =>
      match childGetN n.children c with
      | some j =>
        let (s1, j1) := put_helperS s j rest v
        (s1 ++ [⟨n.value, childInsertN n.children c j1⟩], List.length s1)
      | none =>
        let (s1, j1) := create_pathS s rest v
        (s1 ++ [⟨n.value, childInsertN n.children c j1⟩], List.length s1)

/-- `Trie::put` in the store embedding: the root is `Option Nat`. -/
def putS (s : Store) (root : Option Nat) (key : List Char) (v : Value) :
    Store × Nat :=
  match root with
  | some i => put_helperS s i key v
  | none => create_pathS s key v

/-- `Trie::delete_helper` in the store embedding. -/
def delete_helperS (s : Store) (i : Nat) (key : List Char) :
    Store × Option Nat :=
  match key with
  | [] =>
    match lookupS s i with
    | none => (s, some i)
    | some n =>
      match n.children with
      | [] => (s, none)
      | _ :: _ => (s ++ [⟨none, n.children⟩], some (List.length s))
  | c :: rest =>
    match lookupS s i with
    | none => (s, some i)
    | some n =>
      match childGetN n.children c with
      | some j =>
        match delete_helperS s j rest with
        | (s1, some j1) =>
          (s1 ++ [⟨n.value, childInsertN n.children c j1⟩],
            some (List.length s1))
        | (s1, none) =>
          match childRemoveN n.children c, n.value with
          | [], none => (s1, none)
          | cs, v => (s1 ++ [⟨v, cs⟩], some (List.length s1))
      | none =>
        match n.children, n.value with
        | [], none => (s, none)
        | cs, v => (s ++ [⟨v, cs⟩], some (List.length s))

/-- `Trie::delete` in the store embedding. -/
def deleteS (s : Store) (root : Option Nat) (key : List Char) :
    Store × Option Nat :=
  match root with
  | none => (s, none)
  | some i => delete_helperS s i key

/-- `Trie::get` from an optional root index. -/
def trieGetS (s : Store) (root : Option Nat) (key : List Char) : Option Value :=
  match root with
  | none => none
  | some i => getS s i key

/-- Every child index stored anywhere in the store is in bounds. -/
def closedS (s : Store) : Bool :=
  List.all s (fun n => List.all n.children (fun p => decide (p.2 < List.length s)))

/-- The root index (when present) is in bounds. -/
def rootOkS (s : Store) (root : Option Nat) : Bool :=
  match root with
  | none => true
  | some i => decide (i < List.length s)

/-- Closedness of a store, as a proposition. -/
def ClosedP (s : Store) : Prop :=
  ∀ n ∈ s, ∀ p ∈ n.children, p.2 < List.length s

/-! ### Association-list (child map) lemmas -/

@[simp] theorem childGet_childInsert_self (cs : List (Char × Node)) (c : Char) (n : Node) :
    childGet (childInsert cs c n) c = some n := by
  induction cs with
  | nil => simp [childInsert, childGet]
  | cons hd tl ih =>
    obtain ⟨k, m⟩ := hd
    by_cases h : k = c <;> simp [childInsert, childGet, h, ih]

theorem childGet_childInsert_ne (cs : List (Char × Node)) (c c' : Char) (n : Node)
    (h : c' ≠ c) : childGet (childInsert cs c n) c' = childGet cs c' := by
  induction cs with
  | nil => simp [childInsert, childGet, Ne.symm h]
  | cons hd tl ih =>
    obtain ⟨k, m⟩ := hd
    by_cases hk : k = c
    · subst hk
      simp [childInsert, childGet, Ne.symm h]
    · simp [childInsert, childGet, hk, ih]

@[simp] theorem childGet_childRemove_self (cs : List (Char × Node)) (c : Char) :
    childGet (childRemove cs c) c = none := by
  induction cs with
  | nil => simp [childRemove, childGet]
  | cons hd tl ih =>
    obtain ⟨k, m⟩ := hd
    by_cases h : k = c <;> simp [childRemove, childGet, h, ih]

theorem childGet_childRemove_ne (cs : List (Char × Node)) (c c' : Char)
    (h : c' ≠ c) : childGet (childRemove cs c) c' = childGet cs c' := by
  induction cs with
  | nil => simp [childRemove, childGet]
  | cons hd tl ih =>
    obtain ⟨k, m⟩ := hd
    by_cases hk : k = c
    · subst hk
      simp [childRemove, childGet, Ne.symm h, ih]
    · simp [childRemove, childGet, hk, ih]

theorem childInsert_ne_nil (cs : List (Char × Node)) (c : Char) (n : Node) :
    childInsert cs c n ≠ [] := by
  cases cs with
  | nil => simp [childInsert]
  | cons hd tl =>
    obtain ⟨k, m⟩ := hd
    by_cases h : k = c <;> simp [childInsert, h]

theorem childGet_eq_none_of_childRemove_eq_nil (cs : List (Char × Node)) (c c' : Char)
    (hnil : childRemove cs c = []) (h : c' ≠ c) : childGet cs c' = none := by
  induction cs with
  | nil => simp [childGet]
  | cons hd tl ih =>
    obtain ⟨k, m⟩ := hd
    by_cases hk : k = c
    · subst hk
      simp only [childRemove, if_pos rfl] at hnil
      simp [childGet, Ne.symm h, ih hnil]
    · simp [childRemove, hk] at hnil

/-! ### `get` after `put` -/

theorem nodeGet_create_path_self (key : List Char) (v : Value) :
    nodeGet (create_path key v) key = some v := by
  induction key with
  | nil => simp [create_path, nodeGet, Node.value]
  | cons c rest ih => simp [create_path, nodeGet, childGet, ih]

theorem nodeGet_create_path_ne (key key' : List Char) (v : Value)
    (h : key' ≠ key) : nodeGet (create_path key v) key' = none := by
  induction key generalizing key' with
  | nil =>
    cases key' with
    | nil => exact absurd rfl h
    | cons c rest => simp [create_path, nodeGet, childGet]
  | cons c rest ih =>
    cases key' with
    | nil => simp [create_path, nodeGet]
    | cons c' rest' =>
      by_cases hc : c' = c
      · subst hc
        have : rest' ≠ rest := fun hh => h (by rw [hh])
        simp [create_path, nodeGet, childGet, ih rest' this]
      · simp [create_path, nodeGet, childGet, Ne.symm hc]

theorem nodeGet_put_helper_self (n : Node) (key : List Char) (v : Value) :
    nodeGet (put_helper n key v) key = some v := by
  induction key generalizing n with
  | nil => simp [put_helper, nodeGet]
  | cons c rest ih =>
    cases hcg : childGet n.children c with
    | some child => simp [put_helper, nodeGet, hcg, ih]
    | none => simp [put_helper, nodeGet, hcg, nodeGet_create_path_self]

theorem nodeGet_put_helper_ne (n : Node) (key key' : List Char) (v : Value)
    (h : key' ≠ key) : nodeGet (put_helper n key v) key' = nodeGet n key' := by
  induction key generalizing n key' with
  | nil =>
    cases key' with
    | nil => exact absurd rfl h
    | cons c rest => simp [put_helper, nodeGet]
  | cons c rest ih =>
    cases key' with
    | nil => simp [put_helper, nodeGet]
    | cons c' rest' =>
      by_cases hc : c' = c
      · subst hc
        have hr : rest' ≠ rest := fun hh => h (by rw [hh])
        cases hcg : childGet n.children c' with
        | some child =>
          simp [put_helper, nodeGet, hcg, childGet_childInsert_self, ih child rest' hr]
        | none =>
          simp [put_helper, nodeGet, hcg, childGet_childInsert_self,
            nodeGet_create_path_ne rest rest' v hr]
      · cases hcg : childGet n.children c with
        | some child =>
          simp [put_helper, nodeGet, hcg, childGet_childInsert_ne _ _ _ _ hc]
        | none =>
          simp [put_helper, nodeGet, hcg, childGet_childInsert_ne _ _ _ _ hc]

/-- On an empty trie, `put` builds exactly `create_path key v` as root. -/
theorem put_none_eq_create_path (key : List Char) (v : Value) :
    Trie.put ⟨none⟩ key v = ⟨some (create_path key v)⟩ := by
  cases key <;> rfl

theorem get_put_self (t : Trie) (key : List Char) (v : Value) :
    (t.put key v).get key = some v := by
  obtain ⟨root⟩ := t
  cases root with
  | none =>
    rw [put_none_eq_create_path]
    simp [Trie.get, nodeGet_create_path_self]
  | some r => simp [Trie.put, Trie.get, nodeGet_put_helper_self]

theorem get_put_ne (t : Trie) (key key' : List Char) (v : Value)
    (h : key' ≠ key) : (t.put key v).get key' = t.get key' := by
  obtain ⟨root⟩ := t
  cases root with
  | none =>
    rw [put_none_eq_create_path]
    simp [Trie.get, nodeGet_create_path_ne _ _ _ h]
  | some r => simp [Trie.put, Trie.get, nodeGet_put_helper_ne _ _ _ _ h]

/-- C1: round-trip. For every trie `t`, key `k` (any finite character
sequence, including the empty one) and value `v`,
`t.put(k, v).get(k)` returns `Some(v)`. -/
theorem put_get_roundtrip (t : Trie) (k : List Char) (v : Value) :
    (t.put k v).get k = some v :=
  get_put_self t k v

/-! ### `get` after `delete` -/

@[simp] theorem optNodeGet_none (key : List Char) : optNodeGet none key = none := rfl

@[simp] theorem optNodeGet_some (n : Node) (key : List Char) :
    optNodeGet (some n) key = nodeGet n key := rfl

theorem get_mk_root (o : Option Node) (key : List Char) :
    Trie.get ⟨o⟩ key = optNodeGet o key := by
  cases o <;> rfl

theorem optNodeGet_elideEmpty_nil (v : Option Value) (cs : List (Char × Node)) :
    optNodeGet (elideEmpty v cs) [] = v := by
  cases cs <;> cases v <;> rfl

theorem optNodeGet_elideEmpty_cons (v : Option Value) (cs : List (Char × Node))
    (c : Char) (r : List Char) :
    optNodeGet (elideEmpty v cs) (c :: r) =
      match childGet cs c with
      | some child => nodeGet child r
      | none => none := by
  cases cs <;> cases v <;> rfl

theorem optNodeGet_delete_helper_self (n : Node) (k : List Char) :
    optNodeGet (delete_helper n k) k = none := by
  induction k generalizing n with
  | nil =>
    cases hcs : n.children with
    | nil => simp [delete_helper, hcs]
    | cons hd tl => simp [delete_helper, hcs, nodeGet]
  | cons c rest ih =>
    cases hcg : childGet n.children c with
    | none => simp [delete_helper, hcg, optNodeGet_elideEmpty_cons]
    | some child =>
      cases hdel : delete_helper child rest with
      | some newChild =>
        have h2 : nodeGet newChild rest = none := by
          have hh := ih child
          rw [hdel] at hh
          simpa using hh
        simp [delete_helper, hcg, hdel, optNodeGet_elideEmpty_cons,
          childGet_childInsert_self, h2]
      | none =>
        simp [delete_helper, hcg, hdel, optNodeGet_elideEmpty_cons,
          childGet_childRemove_self]

theorem optNodeGet_delete_helper_ne (n : Node) (k k' : List Char) (h : k' ≠ k) :
    optNodeGet (delete_helper n k) k' = nodeGet n k' := by
  induction k generalizing n k' with
  | nil =>
    cases k' with
    | nil => exact absurd rfl h
    | cons c' r' =>
      cases hcs : n.children with
      | nil => simp [delete_helper, hcs, nodeGet, childGet]
      | cons hd tl => simp [delete_helper, hcs, nodeGet]
  | cons c rest ih =>
    cases hcg : childGet n.children c with
    | none =>
      cases k' with
      | nil => simp [delete_helper, hcg, optNodeGet_elideEmpty_nil, nodeGet]
      | cons c' r' => simp [delete_helper, hcg, optNodeGet_elideEmpty_cons, nodeGet]
    | some child =>
      cases hdel : delete_helper child rest with
      | some newChild =>
        cases k' with
        | nil => simp [delete_helper, hcg, hdel, optNodeGet_elideEmpty_nil, nodeGet]
        | cons c' r' =>
          by_cases hc : c' = c
          · subst hc
            have hr : r' ≠ rest := fun hh => h (by rw [hh])
            have h2 : nodeGet newChild r' = nodeGet child r' := by
              have hh := ih child r' hr
              rw [hdel] at hh
              simpa using hh
            simp [delete_helper, hcg, hdel, optNodeGet_elideEmpty_cons,
              childGet_childInsert_self, nodeGet, h2]
          · simp [delete_helper, hcg, hdel, optNodeGet_elideEmpty_cons,
              childGet_childInsert_ne _ _ _ _ hc, nodeGet]
      | none =>
        cases k' with
        | nil => simp [delete_helper, hcg, hdel, optNodeGet_elideEmpty_nil, nodeGet]
        | cons c' r' =>
          by_cases hc : c' = c
          · subst hc
            have hr : r' ≠ rest := fun hh => h (by rw [hh])
            have h2 : nodeGet child r' = none := by
              have hh := ih child r' hr
              rw [hdel] at hh
              simpa using hh.symm
            simp [delete_helper, hcg, hdel, optNodeGet_elideEmpty_cons,
              childGet_childRemove_self, nodeGet, h2]
          · simp [delete_helper, hcg, hdel, optNodeGet_elideEmpty_cons,
              childGet_childRemove_ne _ _ _ hc, nodeGet]

theorem get_delete_self (t : Trie) (k : List Char) : (t.delete k).get k = none := by
  obtain ⟨root⟩ := t
  cases root with
  | none => simp [Trie.delete, Trie.get]
  | some r =>
    rw [Trie.delete, get_mk_root]
    exact optNodeGet_delete_helper_self r k

theorem get_delete_ne (t : Trie) (k k' : List Char) (h : k' ≠ k) :
    (t.delete k).get k' = t.get k' := by
  obtain ⟨root⟩ := t
  cases root with
  | none => simp [Trie.delete, Trie.get]
  | some r =>
    rw [Trie.delete, get_mk_root]
    exact optNodeGet_delete_helper_ne r k k' h

/-- Deleting a key whose lookup already fails leaves every lookup result
unchanged. -/
theorem get_delete_of_get_none (t : Trie) (k k' : List Char)
    (h : t.get k = none) : (t.delete k).get k' = t.get k' := by
  by_cases hk : k' = k
  · subst hk
    rw [get_delete_self, h]
  · exact get_delete_ne t k k' hk

theorem get_applyOps_ne (k1 k2 : List Char) (h : k2 ≠ k1) (ops : List Op) :
    ∀ t : Trie, (applyOps k1 t ops).get k2 = t.get k2 := by
  induction ops with
  | nil => intro t; rfl
  | cons op rest ih =>
    intro t
    rw [applyOps, ih (applyOp k1 t op)]
    cases op with
    | putv v => exact get_put_ne t k1 k2 v h
    | del => exact get_delete_ne t k1 k2 h

/-- C2: isolation. For distinct keys `k1 ≠ k2`, a `put` at `k1` leaves
`get k2` unchanged, a `delete` at `k1` leaves `get k2` unchanged, and more
generally any sequence of `put`/`delete` applied at `k1` leaves `get k2`
unchanged. -/
theorem put_delete_isolation (t : Trie) (k1 k2 : List Char) (v : Value)
    (ops : List Op) (h : k1 ≠ k2) :
    (t.put k1 v).get k2 = t.get k2 ∧ (t.delete k1).get k2 = t.get k2 ∧
      (applyOps k1 t ops).get k2 = t.get k2 :=
  ⟨get_put_ne t k1 k2 v (Ne.symm h), get_delete_ne t k1 k2 (Ne.symm h),
    get_applyOps_ne k1 k2 (Ne.symm h) ops t⟩

/-- Witness for C2 at concrete inputs. -/
theorem put_delete_isolation_witness :
    (Trie.new.put ['a'] (Value.int32 1)).get ['b'] = Trie.new.get ['b'] ∧
      (Trie.new.delete ['a']).get ['b'] = Trie.new.get ['b'] ∧
      (applyOps ['a'] Trie.new [Op.putv (Value.int32 2), Op.del]).get ['b'] =
        Trie.new.get ['b'] :=
  put_delete_isolation Trie.new ['a'] ['b'] (Value.int32 1)
    [Op.putv (Value.int32 2), Op.del] (by decide)

/-- C3: delete removes exactly the target key. `t.delete(k).get(k)` is
`None`; and when `k` is absent (`t.get(k) = None`), the deletion leaves the
`get` result of every key unchanged. -/
theorem delete_removes_key (t : Trie) (k k' : List Char) :
    (t.delete k).get k = none ∧
      (t.get k = none → (t.delete k).get k' = t.get k') :=
  ⟨get_delete_self t k, fun h => get_delete_of_get_none t k k' h⟩

/-- Witness for C3 at concrete inputs. -/
theorem delete_removes_key_witness :
    (Trie.new.delete ['a']).get ['a'] = none ∧
      (Trie.new.delete ['a']).get ['b'] = Trie.new.get ['b'] :=
  ⟨(delete_removes_key Trie.new ['a'] ['b']).1,
    (delete_removes_key Trie.new ['a'] ['b']).2 (by decide)⟩

/-- C6: empty-key addressing. `put("", v)` then `get("")` is `Some v`, and
`put("", v)` leaves every non-empty key's `get` result unchanged. -/
theorem empty_key_addressing (t : Trie) (v : Value) (k : List Char) :
    (t.put [] v).get [] = some v ∧
      (k ≠ [] → (t.put [] v).get k = t.get k) :=
  ⟨get_put_self t [] v, fun h => get_put_ne t [] k v h⟩

/-- Witness for C6 at concrete inputs. -/
theorem empty_key_addressing_witness :
    (Trie.new.put [] (Value.int32 7)).get [] = some (Value.int32 7) ∧
      (Trie.new.put [] (Value.int32 7)).get ['a'] = Trie.new.get ['a'] :=
  ⟨(empty_key_addressing Trie.new (Value.int32 7) ['a']).1,
    (empty_key_addressing Trie.new (Value.int32 7) ['a']).2 (by decide)⟩

/-- C7: idempotent delete. `t.delete(k).delete(k)` returns the same `get`
result as `t.delete(k)` on every key. -/
theorem delete_idempotent (t : Trie) (k k' : List Char) :
    ((t.delete k).delete k).get k' = (t.delete k).get k' :=
  get_delete_of_get_none (t.delete k) k k' (get_delete_self t k)

/-! ### Overwrite keeps the addressed node's children -/

theorem nodeAt_put_helper (root : Node) (k : List Char) (v : Value) (n : Node)
    (h : nodeAt root k = some n) :
    nodeAt (put_helper root k v) k = some (Node.mk (some v) n.children) := by
  induction k generalizing root with
  | nil =>
    obtain rfl : root = n := by simpa [nodeAt] using h
    simp [put_helper, nodeAt]
  | cons c rest ih =>
    cases hcg : childGet root.children c with
    | none => simp [nodeAt, hcg] at h
    | some child =>
      have hchild : nodeAt child rest = some n := by
        simpa [nodeAt, hcg] using h
      simp [put_helper, nodeAt, hcg, childGet_childInsert_self, ih child hchild]

theorem append_ne_of_ne_nil (k ext : List Char) (h : ext ≠ []) : k ++ ext ≠ k := by
  intro hh
  have h0 := congrArg List.length hh
  simp only [List.length_append] at h0
  have : List.length ext = 0 := by omega
  exact h (List.length_eq_zero.mp this)

/-- C8: overwrite preserves children. If key `k` is present in `t` (it
addresses a node `n` carrying a value), then the node addressed by `k` in
`t.put(k, v)` has exactly `n`'s children with only the value replaced; and
every strict extension of `k` keeps its `get` result. -/
theorem overwrite_preserves_children (t : Trie) (k : List Char) (v w : Value)
    (n : Node) (ext : List Char)
    (hn : t.subnode k = some n) (hv : n.value = some w) :
    (t.put k v).subnode k = some (Node.mk (some v) n.children) ∧
      (ext ≠ [] → (t.put k v).get (k ++ ext) = t.get (k ++ ext)) := by
  constructor
  · obtain ⟨root⟩ := t
    cases root with
    | none => simp [Trie.subnode] at hn
    | some r =>
      have hat : nodeAt r k = some n := by simpa [Trie.subnode] using hn
      simpa [Trie.put, Trie.subnode] using nodeAt_put_helper r k v n hat
  · intro hext
    exact get_put_ne t k (k ++ ext) v (append_ne_of_ne_nil k ext hext)

/-- Witness for C8 at concrete inputs. -/
theorem overwrite_preserves_children_witness :
    ((Trie.new.put ['a'] (Value.int32 1)).put ['a'] (Value.int32 2)).subnode ['a'] =
        some (Node.mk (some (Value.int32 2))
          (Node.mk (some (Value.int32 1)) ([] : List (Char × Node))).children) ∧
      (['b'] ≠ ([] : List Char) →
        ((Trie.new.put ['a'] (Value.int32 1)).put ['a'] (Value.int32 2)).get
            (['a'] ++ ['b']) =
          (Trie.new.put ['a'] (Value.int32 1)).get (['a'] ++ ['b'])) :=
  overwrite_preserves_children (Trie.new.put ['a'] (Value.int32 1)) ['a']
    (Value.int32 2) (Value.int32 1) (Node.mk (some (Value.int32 1)) []) ['b']
    rfl rfl

/-- C9: `get_root` on an empty trie is the empty node, and the
put/put/put then delete/delete/delete scenario from the spec drains the
trie back to an empty root node. -/
theorem get_root_empty_scenario :
    Trie.new.get_root = Node.new ∧
      ((((((Trie.new.put ['t','e','s','t'] (Value.int32 2333)).put
            ['t','e'] (Value.int32 23)).put
            ['t','e','s'] (Value.int32 233)).delete
            ['t','e','s','t']).delete
            ['t','e','s']).delete
            ['t','e']).get_root = Node.new :=
  ⟨rfl, rfl⟩

/-- C10: wrap/unwrap round trip. `Trie::from_node(t.into_node())` returns
the same `get` result as `t` on every key (for the empty trie the root is
materialized as an explicit empty node, so the equivalence is
observational). -/
theorem from_node_into_node_roundtrip (t : Trie) (k : List Char) :
    (Trie.from_node t.into_node).get k = t.get k := by
  obtain ⟨root⟩ := t
  cases root with
  | some r => rfl
  | none => cases k <;> rfl

/-! ### The pruning invariant -/

theorem wellPruned_mk (v : Option Value) (cs : List (Char × Node)) :
    wellPruned (.mk v cs) = ((v.isSome || !cs.isEmpty) && childrenPruned cs) := by
  rw [wellPruned]

theorem childrenPruned_nil : childrenPruned [] = true := by
  rw [childrenPruned]

theorem childrenPruned_cons (c : Char) (n : Node) (rest : List (Char × Node)) :
    childrenPruned ((c, n) :: rest) = (wellPruned n && childrenPruned rest) := by
  rw [childrenPruned]

theorem childrenPruned_childGet (cs : List (Char × Node)) (c : Char) (child : Node)
    (h : childrenPruned cs = true) (hg : childGet cs c = some child) :
    wellPruned child = true := by
  induction cs with
  | nil => simp [childGet] at hg
  | cons hd tl ih =>
    obtain ⟨k, m⟩ := hd
    rw [childrenPruned_cons] at h
    simp only [Bool.and_eq_true] at h
    by_cases hk : k = c
    · obtain rfl : m = child := by simpa [childGet, hk] using hg
      exact h.1
    · exact ih h.2 (by simpa [childGet, hk] using hg)

theorem childrenPruned_childInsert (cs : List (Char × Node)) (c : Char) (nd : Node)
    (h : childrenPruned cs = true) (hn : wellPruned nd = true) :
    childrenPruned (childInsert cs c nd) = true := by
  induction cs with
  | nil => simp [childInsert, childrenPruned_cons, childrenPruned_nil, hn]
  | cons hd tl ih =>
    obtain ⟨k, m⟩ := hd
    rw [childrenPruned_cons] at h
    simp only [Bool.and_eq_true] at h
    by_cases hk : k = c
    · simp [childInsert, hk, childrenPruned_cons, hn, h.2]
    · simp [childInsert, hk, childrenPruned_cons, h.1, ih h.2]

theorem childrenPruned_childRemove (cs : List (Char × Node)) (c : Char)
    (h : childrenPruned cs = true) :
    childrenPruned (childRemove cs c) = true := by
  induction cs with
  | nil => simpa [childRemove] using h
  | cons hd tl ih =>
    obtain ⟨k, m⟩ := hd
    rw [childrenPruned_cons] at h
    simp only [Bool.and_eq_true] at h
    by_cases hk : k = c
    · simp [childRemove, hk, ih h.2]
    · simp [childRemove, hk, childrenPruned_cons, h.1, ih h.2]

theorem childInsert_isEmpty (cs : List (Char × Node)) (c : Char) (n : Node) :
    (childInsert cs c n).isEmpty = false := by
  cases hci : childInsert cs c n with
  | nil => exact absurd hci (childInsert_ne_nil cs c n)
  | cons hd tl => rfl

theorem wellPruned_create_path (k : List Char) (v : Value) :
    wellPruned (create_path k v) = true := by
  induction k with
  | nil => simp [create_path, wellPruned_mk, childrenPruned_nil]
  | cons c rest ih =>
    simp [create_path, wellPruned_mk, childrenPruned_cons, childrenPruned_nil, ih]

theorem wellPruned_put_helper (n : Node) (k : List Char) (v : Value)
    (h : wellPruned n = true) : wellPruned (put_helper n k v) = true := by
  induction k generalizing n with
  | nil =>
    cases n with
    | mk nv cs =>
      rw [wellPruned_mk] at h
      simp only [Bool.and_eq_true] at h
      simp [put_helper, wellPruned_mk, h.2]
  | cons c rest ih =>
    cases n with
    | mk nv cs =>
      rw [wellPruned_mk] at h
      simp only [Bool.and_eq_true] at h
      cases hcg : childGet cs c with
      | some child =>
        have hchild := childrenPruned_childGet cs c child h.2 hcg
        simp [put_helper, hcg, wellPruned_mk, childInsert_isEmpty,
          childrenPruned_childInsert cs c _ h.2 (ih child hchild)]
      | none =>
        simp [put_helper, hcg, wellPruned_mk, childInsert_isEmpty,
          childrenPruned_childInsert cs c _ h.2 (wellPruned_create_path rest v)]

theorem elideEmpty_some_inv (v : Option Value) (cs : List (Char × Node)) (n' : Node)
    (h : elideEmpty v cs = some n') :
    n' = Node.mk v cs ∧ (v.isSome || !cs.isEmpty) = true := by
  cases cs with
  | nil =>
    cases v with
    | none => exact absurd h (by simp [elideEmpty])
    | some w =>
      have hh : Node.mk (some w) [] = n' := by simpa [elideEmpty] using h
      exact ⟨hh.symm, rfl⟩
  | cons hd tl =>
    have hh : Node.mk v (hd :: tl) = n' := by
      cases v <;> simpa [elideEmpty] using h
    exact ⟨hh.symm, by simp⟩

theorem wellPruned_delete_helper (n : Node) (k : List Char) (n' : Node)
    (h : wellPruned n = true) (hd : delete_helper n k = some n') :
    wellPruned n' = true := by
  induction k generalizing n n' with
  | nil =>
    cases n with
    | mk nv cs =>
      rw [wellPruned_mk] at h
      simp only [Bool.and_eq_true] at h
      cases cs with
      | nil => simp [delete_helper] at hd
      | cons hd0 tl =>
        obtain rfl : Node.mk none (hd0 :: tl) = n' := by
          simpa [delete_helper] using hd
        simp [wellPruned_mk, h.2]
  | cons c rest ih =>
    cases n with
    | mk nv cs =>
      rw [wellPruned_mk] at h
      simp only [Bool.and_eq_true] at h
      cases hcg : childGet cs c with
      | none =>
        simp only [delete_helper, Node.children_mk, Node.value_mk, hcg] at hd
        obtain ⟨rfl, hne⟩ := elideEmpty_some_inv nv cs n' hd
        simp [wellPruned_mk, hne, h.2]
      | some child =>
        have hchild := childrenPruned_childGet cs c child h.2 hcg
        cases hdel : delete_helper child rest with
        | some newChild =>
          simp only [delete_helper, Node.children_mk, Node.value_mk, hcg, hdel] at hd
          obtain ⟨rfl, hne⟩ := elideEmpty_some_inv nv _ n' hd
          simp [wellPruned_mk, hne,
            childrenPruned_childInsert cs c newChild h.2 (ih child newChild hchild hdel)]
        | none =>
          simp only [delete_helper, Node.children_mk, Node.value_mk, hcg, hdel] at hd
          obtain ⟨rfl, hne⟩ := elideEmpty_some_inv nv _ n' hd
          simp [wellPruned_mk, hne, childrenPruned_childRemove cs c h.2]

theorem triePruned_put (t : Trie) (k : List Char) (v : Value)
    (h : triePruned t = true) : triePruned (t.put k v) = true := by
  obtain ⟨root⟩ := t
  cases root with
  | none =>
    rw [put_none_eq_create_path]
    simpa [triePruned] using wellPruned_create_path k v
  | some r =>
    have hr : wellPruned r = true := by simpa [triePruned] using h
    simpa [Trie.put, triePruned] using wellPruned_put_helper r k v hr

theorem triePruned_delete (t : Trie) (k : List Char)
    (h : triePruned t = true) : triePruned (t.delete k) = true := by
  obtain ⟨root⟩ := t
  cases root with
  | none => simp [Trie.delete, triePruned]
  | some r =>
    have hr : wellPruned r = true := by simpa [triePruned] using h
    cases hdel : delete_helper r k with
    | none => simp [Trie.delete, hdel, triePruned]
    | some n' =>
      simp [Trie.delete, hdel, triePruned, wellPruned_delete_helper r k n' hr hdel]

theorem triePruned_applyOpsK (ops : List OpK) :
    ∀ t : Trie, triePruned t = true → triePruned (applyOpsK t ops) = true := by
  induction ops with
  | nil => exact fun t h => h
  | cons op rest ih =>
    intro t h
    rw [applyOpsK]
    apply ih
    cases op with
    | putv k v => exact triePruned_put t k v h
    | del k => exact triePruned_delete t k h

theorem wellPruned_not_empty (n : Node) (h : wellPruned n = true) :
    ¬(n.value = none ∧ n.children = []) := by
  cases n with
  | mk v cs =>
    rw [wellPruned_mk] at h
    simp only [Bool.and_eq_true] at h
    rintro ⟨hv, hcs⟩
    simp only [Node.value_mk] at hv
    simp only [Node.children_mk] at hcs
    subst hv
    subst hcs
    simp at h

theorem wellPruned_nodeAt (r : Node) (path : List Char) (n' : Node)
    (h : wellPruned r = true) (hat : nodeAt r path = some n') :
    ¬(n'.value = none ∧ n'.children = []) := by
  induction path generalizing r with
  | nil =>
    have hr : r = n' := by simpa [nodeAt] using hat
    exact hr ▸ wellPruned_not_empty r h
  | cons c rest ih =>
    cases hcg : childGet r.children c with
    | none => simp [nodeAt, hcg] at hat
    | some child =>
      have hchild : nodeAt child rest = some n' := by simpa [nodeAt, hcg] using hat
      have hcp : childrenPruned r.children = true := by
        cases r with
        | mk v cs =>
          rw [wellPruned_mk] at h
          simp only [Bool.and_eq_true] at h
          simpa using h.2
      exact ih child (childrenPruned_childGet _ _ _ hcp hcg) hchild

/-- C5: pruning invariant. In every trie reachable from `Trie::new()` by a
finite sequence of `put`/`delete` operations, no node reachable from the
root (when a root is present) has both no value and an empty children
map. -/
theorem pruning_invariant (ops : List OpK) (r n' : Node) (path : List Char)
    (hroot : (applyOpsK Trie.new ops).root = some r)
    (hat : nodeAt r path = some n') :
    ¬(n'.value = none ∧ n'.children = []) := by
  have hp : triePruned (applyOpsK Trie.new ops) = true :=
    triePruned_applyOpsK ops Trie.new rfl
  have hw : wellPruned r = true := by
    rcases happ : applyOpsK Trie.new ops with ⟨o⟩
    rw [happ] at hroot hp
    change o = some r at hroot
    subst hroot
    simpa [triePruned] using hp
  exact wellPruned_nodeAt r path n' hw hat

/-- Witness for C5 at concrete inputs. -/
theorem pruning_invariant_witness :
    ¬((Node.mk none [('a', Node.mk (some (Value.int32 1)) [])]).value = none ∧
      (Node.mk none [('a', Node.mk (some (Value.int32 1)) [])]).children = []) :=
  pruning_invariant [OpK.putv ['a'] (Value.int32 1)]
    (Node.mk none [('a', Node.mk (some (Value.int32 1)) [])])
    (Node.mk none [('a', Node.mk (some (Value.int32 1)) [])]) [] rfl rfl

/-! ### Prior versions are untouched: the explicit-heap argument -/

theorem childGetN_mem (cs : List (Char × Nat)) (c : Char) (j : Nat)
    (h : childGetN cs c = some j) : (c, j) ∈ cs := by
  induction cs with
  | nil => simp [childGetN] at h
  | cons hd tl ih =>
    obtain ⟨k, i⟩ := hd
    by_cases hk : k = c
    · subst hk
      obtain rfl : i = j := by simpa [childGetN] using h
      exact List.mem_cons_self _ _
    · exact List.mem_cons_of_mem _ (ih (by simpa [childGetN, hk] using h))

theorem closedS_closedP (s : Store) (h : closedS s = true) : ClosedP s := by
  intro n hn p hp
  rw [closedS, List.all_eq_true] at h
  have h2 := h n hn
  rw [List.all_eq_true] at h2
  simpa using h2 p hp

theorem lookupS_append (s ext : Store) (i : Nat) (h : i < List.length s) :
    lookupS (s ++ ext) i = lookupS s i := by
  rw [lookupS, lookupS]
  exact List.getElem?_append_left h

theorem mem_of_lookupS (s : Store) (i : Nat) (n : SNode) (h : lookupS s i = some n) :
    n ∈ s := by
  rw [lookupS] at h
  have hn : i < s.length := by
    by_contra hc
    rw [List.getElem?_eq_none (Nat.le_of_not_lt hc)] at h
    exact Option.noConfusion h
  rw [List.getElem?_eq_getElem hn] at h
  obtain rfl : s[i] = n := Option.some.inj h
  exact List.getElem_mem hn

/-- Reads through the old portion of an extended store are unchanged. -/
theorem getS_append (s ext : Store) (hcl : ClosedP s) :
    ∀ (key : List Char) (i : Nat), i < List.length s →
      getS (s ++ ext) i key = getS s i key := by
  intro key
  induction key with
  | nil =>
    intro i hi
    simp only [getS, lookupS_append s ext i hi]
  | cons c rest ih =>
    intro i hi
    cases hl : lookupS s i with
    | none => simp only [getS, lookupS_append s ext i hi, hl]
    | some n =>
      cases hcg : childGetN n.children c with
      | none => simp only [getS, lookupS_append s ext i hi, hl, hcg]
      | some j =>
        have hj : j < List.length s :=
          hcl n (mem_of_lookupS s i n hl) (c, j) (childGetN_mem _ _ _ hcg)
        simp only [getS, lookupS_append s ext i hi, hl, hcg]
        exact ih j hj

theorem create_pathS_extends (s : Store) (k : List Char) (v : Value) :
    ∃ ext, (create_pathS s k v).1 = s ++ ext := by
  induction k with
  | nil => exact ⟨[⟨some v, []⟩], rfl⟩
  | cons c rest ih =>
    obtain ⟨e1, h1⟩ := ih
    rcases hcp : create_pathS s rest v with ⟨s1, j⟩
    rw [hcp] at h1
    simp only at h1
    refine ⟨e1 ++ [⟨none, [(c, j)]⟩], ?_⟩
    rw [create_pathS, hcp]
    simp only
    rw [h1, List.append_assoc]

theorem put_helperS_extends (s : Store) (k : List Char) :
    ∀ (i : Nat) (v : Value), ∃ ext, (put_helperS s i k v).1 = s ++ ext := by
  induction k with
  | nil =>
    intro i v
    cases hl : lookupS s i with
    | none => exact ⟨[], by simp [put_helperS, hl]⟩
    | some n => exact ⟨[⟨some v, n.children⟩], by simp [put_helperS, hl]⟩
  | cons c rest ih =>
    intro i v
    cases hl : lookupS s i with
    | none => exact ⟨[], by simp [put_helperS, hl]⟩
    | some n =>
      cases hcg : childGetN n.children c with
      | some j =>
        obtain ⟨e1, h1⟩ := ih j v
        rcases hph : put_helperS s j rest v with ⟨s1, j1⟩
        rw [hph] at h1
        simp only at h1
        refine ⟨e1 ++ [⟨n.value, childInsertN n.children c j1⟩], ?_⟩
        simp only [put_helperS, hl, hcg, hph]
        rw [h1, List.append_assoc]
      | none =>
        obtain ⟨e1, h1⟩ := create_pathS_extends s rest v
        rcases hcp : create_pathS s rest v with ⟨s1, j1⟩
        rw [hcp] at h1
        simp only at h1
        refine ⟨e1 ++ [⟨n.value, childInsertN n.children c j1⟩], ?_⟩
        simp only [put_helperS, hl, hcg, hcp]
        rw [h1, List.append_assoc]

theorem delete_helperS_extends (s : Store) (k : List Char) :
    ∀ i : Nat, ∃ ext, (delete_helperS s i k).1 = s ++ ext := by
  induction k with
  | nil =>
    intro i
    cases hl : lookupS s i with
    | none => exact ⟨[], by simp [delete_helperS, hl]⟩
    | some n =>
      rcases hcs : n.children with _ | ⟨hd, tl⟩
      · exact ⟨[], by simp [delete_helperS, hl, hcs]⟩
      · exact ⟨[⟨none, hd :: tl⟩], by simp [delete_helperS, hl, hcs]⟩
  | cons c rest ih =>
    intro i
    cases hl : lookupS s i with
    | none => exact ⟨[], by simp [delete_helperS, hl]⟩
    | some n =>
      cases hcg : childGetN n.children c with
      | none =>
        rcases hcs : n.children with _ | ⟨hd, tl⟩ <;> rcases hv : n.value with _ | w <;>
          rw [hcs] at hcg
        · exact ⟨[], by simp [delete_helperS, hl, hcg, hcs, hv]⟩
        · exact ⟨[⟨some w, []⟩], by simp [delete_helperS, hl, hcg, hcs, hv]⟩
        · exact ⟨[⟨none, hd :: tl⟩], by simp [delete_helperS, hl, hcg, hcs, hv]⟩
        · exact ⟨[⟨some w, hd :: tl⟩], by simp [delete_helperS, hl, hcg, hcs, hv]⟩
      | some j =>
        obtain ⟨e1, h1⟩ := ih j
        rcases hdh : delete_helperS s j rest with ⟨s1, o1⟩
        rw [hdh] at h1
        simp only at h1
        cases o1 with
        | some j1 =>
          refine ⟨e1 ++ [⟨n.value, childInsertN n.children c j1⟩], ?_⟩
          simp only [delete_helperS, hl, hcg, hdh]
          rw [h1, List.append_assoc]
        | none =>
          rcases hcr : childRemoveN n.children c with _ | ⟨hd, tl⟩ <;>
            rcases hv : n.value with _ | w
          · refine ⟨e1, ?_⟩
            simp only [delete_helperS, hl, hcg, hdh, hcr, hv]
            exact h1
          · refine ⟨e1 ++ [⟨some w, []⟩], ?_⟩
            simp only [delete_helperS, hl, hcg, hdh, hcr, hv]
            rw [h1, List.append_assoc]
          · refine ⟨e1 ++ [⟨none, hd :: tl⟩], ?_⟩
            simp only [delete_helperS, hl, hcg, hdh, hcr, hv]
            rw [h1, List.append_assoc]
          · refine ⟨e1 ++ [⟨some w, hd :: tl⟩], ?_⟩
            simp only [delete_helperS, hl, hcg, hdh, hcr, hv]
            rw [h1, List.append_assoc]

theorem trieGetS_append (s ext : Store) (root : Option Nat)
    (hcl : ClosedP s) (hr : rootOkS s root = true) (key : List Char) :
    trieGetS (s ++ ext) root key = trieGetS s root key := by
  cases root with
  | none => rfl
  | some i =>
    have hi : i < List.length s := by simpa [rootOkS] using hr
    exact getS_append s ext hcl key i hi

/-- C4: immutability of prior versions. In the explicit-heap embedding of
the code (where every `Arc::new` is an append to the store), constructing
`t2 = t.put(k, v)` or `t2 = t.delete(k)` only extends the heap: a `get`
of any key `k'` against `t`'s root in the extended heap returns exactly
what it returned before, for any well-formed heap. -/
theorem prior_version_immutable (s : Store) (root : Option Nat)
    (k k' : List Char) (v : Value)
    (hc : closedS s = true) (hr : rootOkS s root = true) :
    trieGetS (putS s root k v).1 root k' = trieGetS s root k' ∧
      trieGetS (deleteS s root k).1 root k' = trieGetS s root k' := by
  have hcl := closedS_closedP s hc
  constructor
  · cases root with
    | none => rfl
    | some i =>
      obtain ⟨ext, hext⟩ := put_helperS_extends s k i v
      rw [putS, hext]
      exact trieGetS_append s ext (some i) hcl hr k'
  · cases root with
    | none => rfl
    | some i =>
      obtain ⟨ext, hext⟩ := delete_helperS_extends s k i
      rw [deleteS, hext]
      exact trieGetS_append s ext (some i) hcl hr k'

/-- Witness for C4 at concrete inputs. -/
theorem prior_version_immutable_witness :
    trieGetS (putS [⟨some (Value.int32 5), []⟩] (some 0) ['a'] (Value.int32 7)).1
        (some 0) [] = trieGetS [⟨some (Value.int32 5), []⟩] (some 0) [] ∧
      trieGetS (deleteS [⟨some (Value.int32 5), []⟩] (some 0) ['a']).1
        (some 0) [] = trieGetS [⟨some (Value.int32 5), []⟩] (some 0) [] :=
  prior_version_immutable [⟨some (Value.int32 5), []⟩] (some 0) ['a'] []
    (Value.int32 7) (by decide) (by decide)

end CowTrie
